import Mathlib

/-!
Verification of the dispatch planner in `src/fetchers.js` of helix-dispatch.

JavaScript strings are embedded as lists of characters (`Str`), machine
numbers as `Nat`, possibly-`undefined` values as `Option`, and code that can
throw as `Except`.  Promises carry no concurrency that is observable in the
plan structure, so a resolved promise is embedded as its value; the outcome
of the external ref-resolution service is an explicit oracle argument.
`path.resolve` of Node's posix path module is embedded faithfully, with the
process working directory `cwd` as an explicit argument.
-/

namespace HelixDispatch

/-- JavaScript strings are modelled as lists of characters. -/
abbrev Str := List Char

/-- `String.prototype.lastIndexOf` for a single character: `none` plays the
role of JavaScript's `-1`. -/
def lastIdx (c : Char) : Str → Option Nat
  | [] => none
  | x :: rest =>
    match lastIdx c rest with
    | some k => some (k + 1)
    | none => if x = c then some 0 else none

/-- The integer value JavaScript's `lastIndexOf` returns: the index, or `-1`. -/
def idxInt : Option Nat → Int
  | none => -1
  | some n => n

/-- JavaScript `<=` on two `lastIndexOf` results. -/
def jsLe (a b : Option Nat) : Bool := idxInt a ≤ idxInt b

/-- JavaScript `>` on two `lastIndexOf` results. -/
def jsGt (a b : Option Nat) : Bool := idxInt b < idxInt a

/-- JavaScript `s.substring(a, b)` for `a ≤ b` (the only way it is called in
the source). -/
def substr (s : Str) (a b : Nat) : Str := (s.take b).drop a

/-- Truthiness of a possibly-`undefined` JavaScript string: `undefined` and
the empty string are falsy. -/
def truthyS : Option Str → Bool
  | none => false
  | some s => !s.isEmpty

/-- JavaScript `a || d` where `a` is a possibly-`undefined` string and `d` a
string default. -/
def jsOrStr (a : Option Str) (d : Str) : Str :=
  if truthyS a then a.getD [] else d

/-- JavaScript `a || b` on two possibly-`undefined` strings. -/
def jsOr (a b : Option Str) : Option Str :=
  if truthyS a then a else b

/-! ## Resolver policies (`defaultResolver`, `errorPageResolver`) -/

/-- The `params` of a task, as read back from a completed response for error
message construction (`res.actionOptions.params`). -/
structure RespParams where
  owner : Str
  repo : Str
  ref : Str
  path : Str
deriving DecidableEq

/-- `res.actionOptions`: invocation index, target action name and params. -/
structure RespActionOptions where
  idx : Nat
  name : Str
  «params» : RespParams
deriving DecidableEq

/-- A completed action response, as consumed by the resolver policies. -/
structure Response where
  statusCode : Nat
  body : Option Str
  actionOptions : RespActionOptions
deriving DecidableEq

/-- The error a resolver policy rejects with: a message and a status code. -/
structure ResolverError where
  message : Str
  statusCode : Nat
deriving DecidableEq

/-- Decimal rendering of a number, as JavaScript template literals do. -/
def natStr (n : Nat) : Str := (Nat.repr n).toList

/-- `defaultResolver` (fetchers.js lines 34-43): reject status codes `>= 400`
with a descriptive error, remapping 502 to 504; accept everything else. -/
def defaultResolver (res : Response) : Except ResolverError Response :=
  if res.statusCode ≥ 400 then
    .error
      { message :=
          ("[".toList) ++ natStr res.actionOptions.idx
            ++ ("] Error invoking ".toList) ++ res.actionOptions.name
            ++ ("(".toList) ++ res.actionOptions.params.owner
            ++ ("/".toList) ++ res.actionOptions.params.repo
            ++ ("/".toList) ++ res.actionOptions.params.ref
            ++ res.actionOptions.params.path ++ ("): ".toList)
            ++ natStr res.statusCode
        statusCode := if res.statusCode = 502 then 504 else res.statusCode }
  else
    .ok res

/-- `errorPageResolver` (fetchers.js lines 50-56): a 200 response is accepted
with its status code rewritten to 404; everything else is delegated to
`defaultResolver`. -/
def errorPageResolver (res : Response) : Except ResolverError Response :=
  if res.statusCode = 200 then
    .ok { res with statusCode := 404 }
  else
    defaultResolver res

/-- Store-level rendering of `errorPageResolver` for the frame/aliasing
claim: responses live in a store (heap) of response objects, a caller holds
the index of one of them, and the resolver resolves with an index.  The
source mutates `res.statusCode` in place and resolves with the very same
object, which here is: the store is updated at the caller's index and the
returned index is the caller's own.  The `none` branch cannot arise for a
live reference. -/
def errorPageResolverStore (store : List Response) (i : Nat) :
    List Response × Except ResolverError Nat :=
  match store[i]? with
  | some res =>
    if res.statusCode = 200 then
      (store.set i { res with statusCode := 404 }, .ok i)
    else
      match defaultResolver res with
      | .ok _ => (store, .ok i)
      | .error e => (store, .error e)
  | none => (store, .error { message := [], statusCode := 0 })

/-- C2: `defaultResolver` accepts any response with status below 400 and
rejects any other with an error whose message embeds the invocation index,
target name and owner/repo/ref/path, remapping a 502 status to 504 on the
error and preserving any other status. -/
theorem defaultResolver_spec (res : Response) :
    (res.statusCode < 400 → defaultResolver res = .ok res) ∧
    (res.statusCode ≥ 400 →
      defaultResolver res = .error
        { message :=
            ("[".toList) ++ natStr res.actionOptions.idx
              ++ ("] Error invoking ".toList) ++ res.actionOptions.name
              ++ ("(".toList) ++ res.actionOptions.params.owner
              ++ ("/".toList) ++ res.actionOptions.params.repo
              ++ ("/".toList) ++ res.actionOptions.params.ref
              ++ res.actionOptions.params.path ++ ("): ".toList)
              ++ natStr res.statusCode
          statusCode := if res.statusCode = 502 then 504 else res.statusCode }) := by
  constructor
  · intro h
    unfold defaultResolver
    rw [if_neg (by omega)]
  · intro h
    unfold defaultResolver
    rw [if_pos h]

/-- A concrete response of status `c` used by the policy witnesses. -/
def sampleResponse (c : Nat) : Response where
  statusCode := c
  body := none
  actionOptions :=
    { idx := 3
      name := ("default/html".toList)
      «params» :=
        { owner := ("o".toList)
          repo := ("r".toList)
          ref := ("main".toList)
          path := ("/x.html".toList) } }

/-- Witness for C2 at concrete responses: 399 accepted, a 502 rejected with
a 504 on the error and the full diagnostic message. -/
theorem defaultResolver_spec_witness :
    (defaultResolver (sampleResponse 399)).isOk = true ∧
    defaultResolver (sampleResponse 502)
      = .error
          { message := ("[3] Error invoking default/html(o/r/main/x.html): 502".toList)
            statusCode := 504 } := by
  constructor
  · have h := (defaultResolver_spec (sampleResponse 399)).1 (by decide)
    rw [h]
    rfl
  · have h := (defaultResolver_spec (sampleResponse 502)).2 (by decide)
    rw [h]
    rfl

/-- C3: `errorPageResolver` accepts a 200 response with its status rewritten
to 404, and on any other status behaves exactly as `defaultResolver`, so a
404 or 500 response is rejected with its status code preserved. -/
theorem errorPageResolver_spec (res : Response) :
    (res.statusCode = 200 → errorPageResolver res = .ok { res with statusCode := 404 }) ∧
    (res.statusCode ≠ 200 → errorPageResolver res = defaultResolver res) ∧
    (res.statusCode = 404 ∨ res.statusCode = 500 →
      ∃ e, errorPageResolver res = .error e ∧ e.statusCode = res.statusCode) := by
  refine ⟨fun h => ?_, fun h => ?_, fun h => ?_⟩
  · unfold errorPageResolver
    rw [if_pos h]
  · unfold errorPageResolver
    rw [if_neg h]
  · have hne : res.statusCode ≠ 200 := by omega
    have hge : res.statusCode ≥ 400 := by omega
    have h502 : res.statusCode ≠ 502 := by omega
    unfold errorPageResolver
    rw [if_neg hne]
    unfold defaultResolver
    rw [if_pos hge]
    exact ⟨_, rfl, by simp [h502]⟩

/-- Witness for C3 at concrete responses: 200 rewritten to 404 and accepted;
500 rejected with the status preserved. -/
theorem errorPageResolver_spec_witness :
    errorPageResolver (sampleResponse 200) = .ok (sampleResponse 404) ∧
    (∃ e, errorPageResolver (sampleResponse 500) = .error e ∧ e.statusCode = 500) := by
  constructor
  · exact (errorPageResolver_spec (sampleResponse 200)).1 rfl
  · exact (errorPageResolver_spec (sampleResponse 500)).2.2 (Or.inr rfl)

/-- C10: on a 200 response, the store-level `errorPageResolver` updates the
caller's object in place — the store changes only at the caller's index, the
updated object differs only in `statusCode` (now 404) — and resolves with
the caller's own reference, so the caller observes the rewritten status. -/
theorem errorPageResolver_inPlace (store : List Response) (i : Nat) (res : Response)
    (hget : store[i]? = some res) (h200 : res.statusCode = 200) :
    errorPageResolverStore store i
        = (store.set i { res with statusCode := 404 }, .ok i) ∧
    (store.set i { res with statusCode := 404 })[i]?
        = some { res with statusCode := 404 } ∧
    (∀ j, j ≠ i → (store.set i { res with statusCode := 404 })[j]? = store[j]?) ∧
    ({ res with statusCode := 404 } : Response).body = res.body ∧
    ({ res with statusCode := 404 } : Response).actionOptions = res.actionOptions := by
  have hlt : i < store.length := by
    by_contra hge
    rw [List.getElem?_eq_none (by omega)] at hget
    exact Option.noConfusion hget
  refine ⟨?_, ?_, ?_, rfl, rfl⟩
  · unfold errorPageResolverStore
    rw [hget]
    simp [h200]
  · exact List.getElem?_set_eq_of_lt _ (by simpa using hlt)
  · intro j hj
    exact List.getElem?_set_ne (fun h => hj h.symm)

/-- Witness for C10 on a concrete two-element store: the resolver rewrites
the first object's status to 404 in place and resolves with index 0. -/
theorem errorPageResolver_inPlace_witness :
    errorPageResolverStore [sampleResponse 200, sampleResponse 500] 0
      = ([sampleResponse 404, sampleResponse 500], .ok 0) :=
  (errorPageResolver_inPlace [sampleResponse 200, sampleResponse 500] 0
    (sampleResponse 200) rfl rfl).1

/-! ## Path resolution (`getPathInfos`) -/

/-- `urlPath.replace(/\/+/, '/')` (fetchers.js line 88).  The regex has no
global flag, so only the FIRST run of consecutive separators is collapsed
to a single one; the rest of the string is untouched. -/
def collapseFirstRun : Str → Str
  | [] => []
  | c :: rest =>
    if c = '/' then '/' :: rest.dropWhile (fun x => x = '/')
    else c :: collapseFirstRun rest

/-- Helper for `collapseAllRuns`: `prevSlash` records whether the previous
kept character was a separator. -/
def collapseAllAux (prevSlash : Bool) : Str → Str
  | [] => []
  | c :: rest =>
    if c = '/' then
      if prevSlash then collapseAllAux true rest
      else '/' :: collapseAllAux true rest
    else c :: collapseAllAux false rest

/-- What the spec sentence describes: every run of consecutive separators
collapsed to a single one (a global replace).  Used only to compare the
claim's wording with what the code does. -/
def collapseAllRuns (s : Str) : Str := collapseAllAux false s

/-- Splitting a string at `/`, keeping empty pieces (as Node's path
normalization does while scanning separators). -/
def splitOnSlash : Str → List Str
  | [] => [[]]
  | c :: rest =>
    if c = '/' then [] :: splitOnSlash rest
    else (c :: (splitOnSlash rest).headD []) :: (splitOnSlash rest).tail

/-- One segment step of Node's `normalizeString`: empty and `.` segments are
skipped, `..` pops the last stacked segment unless the stack is empty or
ends in `..` (in which case it is kept only when `allowAboveRoot`), and any
other segment is pushed. -/
def normStack (allowAboveRoot : Bool) (stack : List Str) : List Str → List Str
  | [] => stack
  | seg :: rest =>
    if seg = [] ∨ seg = ['.'] then normStack allowAboveRoot stack rest
    else if seg = ['.', '.'] then
      if stack ≠ [] ∧ stack.getLast? ≠ some ['.', '.'] then
        normStack allowAboveRoot stack.dropLast rest
      else if allowAboveRoot then normStack allowAboveRoot (stack ++ [seg]) rest
      else normStack allowAboveRoot stack rest
    else normStack allowAboveRoot (stack ++ [seg]) rest

/-- Joining normalized segments with `/`. -/
def joinSegs : List Str → Str
  | [] => []
  | [s] => s
  | s :: rest => s ++ '/' :: joinSegs rest

/-- The accumulation loop of Node's `path.posix.resolve`: arguments are
prepended from last to first (each followed by a separator) until an
absolute one is found, then the working directory. -/
def goResolve (cwd : Str) (acc : Str) : List Str → Str × Bool
  | [] =>
    if cwd = [] then (acc, false)
    else (cwd ++ '/' :: acc, cwd.headD ' ' = '/')
  | p :: rest =>
    if p = [] then goResolve cwd acc rest
    else if p.headD ' ' = '/' then (p ++ '/' :: acc, true)
    else goResolve cwd (p ++ '/' :: acc) rest

/-- Node's `path.posix.resolve(...paths)` with the process working directory
`cwd` explicit: accumulate right-to-left until absolute, normalize (`.`,
`..`, repeated separators), then render. -/
def posixResolve (cwd : Str) (paths : List Str) : Str :=
  let rp := goResolve cwd [] paths.reverse
  let norm := joinSegs (normStack (!rp.2) [] (splitOnSlash rp.1))
  if rp.2 then '/' :: norm
  else if norm = [] then ['.'] else norm

/-- The order-preserving uniqueness filter of fetchers.js lines 22-27. -/
def unique (arr : List Str) : List Str :=
  arr.foldl (fun retval item => if item ∈ retval then retval else retval ++ [item]) []

/-- `Array.prototype.map` with a callback that can throw: maps elements in
order and stops at the first exception. -/
def mapME (f : α → Except ε β) : List α → Except ε (List β)
  | [] => .ok []
  | x :: xs =>
    match f x with
    | .error e => .error e
    | .ok y =>
      match mapME f xs with
      | .error e => .error e
      | .ok ys => .ok (y :: ys)

/-- The path info structure of fetchers.js (`PathInfo`). -/
structure PathInfo where
  path : Str
  name : Str
  selector : Str
  ext : Str
  relPath : Str
deriving DecidableEq

/-- The error thrown for a candidate without an extension. -/
def extErrorMsg : Str := "directory index must have an extension.".toList

/-- The per-candidate body of `getPathInfos` (fetchers.js lines 107-144):
split a candidate URL into extension, name, selector and relative path, and
strip the mount root from `path`/`relPath` when it applies.  A candidate
whose last dot is not after its last separator throws. -/
def mkPathInfo (mount : Str) (url : Str) : Except Str PathInfo :=
  let lastSlash := lastIdx '/' url
  match lastIdx '.' url with
  | none => .error extErrorMsg
  | some d =>
    if jsLe (some d) lastSlash then .error extErrorMsg
    else
      let sIdx : Nat := match lastSlash with | none => 0 | some s => s + 1
      let ext := url.drop (d + 1)
      let name0 := substr url sIdx d
      let relPath0 := url.take d
      let selDot := lastIdx '.' relPath0
      let nsr :=
        if jsGt selDot lastSlash then
          match selDot with
          | some sd => (substr url sIdx sd, relPath0.drop (sd + 1), relPath0.take sd)
          | none => (name0, [], relPath0)
        else (name0, [], relPath0)
      let stripped :=
        if mount ≠ [] ∧ mount ≠ ['/'] then
          if (mount ++ ['/']).isPrefixOf (nsr.2.2 ++ ['/']) then
            (url.drop mount.length, nsr.2.2.drop mount.length)
          else (url, nsr.2.2)
        else (url, nsr.2.2)
      .ok { path := stripped.1, name := nsr.1, selector := nsr.2.1, ext := ext,
            relPath := stripped.2 }

/-- Step 2 of `getPathInfos` (fetchers.js lines 88-104): the candidate URLs.
A path whose last dot is not after its last separator is either a directory
(ends in `/`, or is empty: one candidate per directory index, resolved
against it) or extension-less (resolve and append `.html`); otherwise the
path itself is the single candidate. -/
def candidateUrls (cwd urlPath0 : Str) (indices : List Str) : List Str :=
  let urlPath := collapseFirstRun urlPath0
  if jsLe (lastIdx '.' urlPath) (lastIdx '/' urlPath) then
    if urlPath = [] ∨ urlPath.getLast? = some '/' then
      indices.map (fun index =>
        posixResolve cwd [if urlPath = [] then ['/'] else urlPath, index])
    else [posixResolve cwd [urlPath] ++ (".html".toList)]
  else [urlPath]

/-- `getPathInfos(urlPath, mount, indices)` (fetchers.js lines 86-145), with
the working directory of `path.resolve` explicit. -/
def getPathInfos (cwd urlPath mount : Str) (indices : List Str) :
    Except Str (List PathInfo) :=
  mapME (mkPathInfo mount) (unique (candidateUrls cwd urlPath indices))

/-! ## Generic instances and list lemmas -/

instance {ε α : Type} [DecidableEq ε] [DecidableEq α] : DecidableEq (Except ε α) := fun a b =>
  match a, b with
  | .error e, .error f =>
    if h : e = f then .isTrue (by rw [h]) else .isFalse (fun hc => h (by injection hc))
  | .error _, .ok _ => .isFalse (fun hc => Except.noConfusion hc)
  | .ok _, .error _ => .isFalse (fun hc => Except.noConfusion hc)
  | .ok x, .ok y =>
    if h : x = y then .isTrue (by rw [h]) else .isFalse (fun hc => h (by injection hc))

theorem isPrefixOf_append (a b : Str) : a.isPrefixOf (a ++ b) = true := by
  induction a with
  | nil => exact List.isPrefixOf_nil_left
  | cons c rest ih => rw [List.cons_append, List.isPrefixOf_cons₂]; simp [ih]

theorem dropWhile_idem (p : Char → Bool) (l : Str) :
    (l.dropWhile p).dropWhile p = l.dropWhile p := by
  induction l with
  | nil => rfl
  | cons c rest ih =>
    by_cases h : p c
    · simp [List.dropWhile_cons, h, ih]
    · simp [List.dropWhile_cons, h]

/-! ## Lemmas about `lastIdx` and the extension check -/

theorem lastIdx_cons_some (c x : Char) (rest : Str) (k : Nat)
    (h : lastIdx c rest = some k) : lastIdx c (x :: rest) = some (k + 1) := by
  unfold lastIdx
  rw [h]

theorem lastIdx_cons_none (c x : Char) (rest : Str)
    (h : lastIdx c rest = none) :
    lastIdx c (x :: rest) = if x = c then some 0 else none := by
  unfold lastIdx
  rw [h]

theorem lastIdx_eq_none_iff (c : Char) (s : Str) : lastIdx c s = none ↔ c ∉ s := by
  induction s with
  | nil => simp [lastIdx]
  | cons x rest ih =>
    simp only [lastIdx, List.mem_cons]
    cases h : lastIdx c rest with
    | some k =>
      have : c ∈ rest := by
        by_contra hm
        rw [ih.mpr hm] at h
        exact Option.noConfusion h
      simp [this]
    | none =>
      rw [h] at ih
      by_cases hx : x = c
      · simp [hx]
      · simp only [if_neg hx]
        constructor
        · intro _ hc
          rcases hc with hc | hc
          · exact hx hc.symm
          · exact (ih.mp rfl) hc
        · intro _
          trivial

theorem lastIdx_lt_length (c : Char) (s : Str) (k : Nat) (h : lastIdx c s = some k) :
    k < s.length := by
  induction s generalizing k with
  | nil => exact Option.noConfusion h
  | cons x rest ih =>
    simp only [lastIdx] at h
    cases hr : lastIdx c rest with
    | some j =>
      rw [hr] at h
      injection h with h
      subst h
      exact Nat.succ_lt_succ (ih j hr)
    | none =>
      rw [hr] at h
      by_cases hx : x = c
      · rw [if_pos hx] at h
        injection h with h
        subst h
        exact Nat.succ_pos _
      · rw [if_neg hx] at h
        exact Option.noConfusion h

theorem lastIdx_append_some (c : Char) (a b : Str) (k : Nat)
    (h : lastIdx c b = some k) : lastIdx c (a ++ b) = some (a.length + k) := by
  induction a with
  | nil => simpa using h
  | cons x rest ih =>
    rw [List.cons_append, lastIdx_cons_some c x (rest ++ b) (rest.length + k) ih]
    simp only [List.length_cons]
    congr 1
    omega

theorem lastIdx_append_none (c : Char) (a b : Str)
    (h : lastIdx c b = none) : lastIdx c (a ++ b) = lastIdx c a := by
  induction a with
  | nil => simpa using h
  | cons x rest ih =>
    cases hr : lastIdx c rest with
    | some k =>
      rw [List.cons_append, lastIdx_cons_some c x (rest ++ b) k (by rw [ih, hr]),
        lastIdx_cons_some c x rest k hr]
    | none =>
      rw [List.cons_append, lastIdx_cons_none c x (rest ++ b) (by rw [ih, hr]),
        lastIdx_cons_none c x rest hr]

theorem jsLe_none_left (b : Option Nat) : jsLe none b = true := by
  cases b with
  | none => rfl
  | some n =>
    simp only [jsLe, idxInt, decide_eq_true_eq]
    omega

/-- A string of the form `p ++ s` with a dot in `s` and no separator in `s`
passes the extension check: its last dot is after its last separator. -/
theorem extCheck_false_of_suffix (p s : Str) (hdot : '.' ∈ s) (hsl : '/' ∉ s) :
    jsLe (lastIdx '.' (p ++ s)) (lastIdx '/' (p ++ s)) = false := by
  have hds : lastIdx '.' s ≠ none := fun h => ((lastIdx_eq_none_iff _ _).mp h) hdot
  obtain ⟨j, hj⟩ := Option.ne_none_iff_exists'.mp hds
  have hss : lastIdx '/' s = none := (lastIdx_eq_none_iff _ _).mpr hsl
  rw [lastIdx_append_some '.' p s j hj, lastIdx_append_none '/' p s hss]
  cases hp : lastIdx '/' p with
  | none =>
    simp only [jsLe, idxInt, decide_eq_false_iff_not]
    push_cast
    omega
  | some m =>
    have hm : m < p.length := lastIdx_lt_length _ _ _ hp
    simp only [jsLe, idxInt, decide_eq_false_iff_not]
    push_cast
    omega

theorem extCheck_true_of_endsSlash (a : Str) :
    jsLe (lastIdx '.' (a ++ ['/'])) (lastIdx '/' (a ++ ['/'])) = true := by
  have h1 : lastIdx '/' ['/'] = some 0 := rfl
  have h2 : lastIdx '.' ['/'] = none := rfl
  rw [lastIdx_append_some '/' a ['/'] 0 h1, lastIdx_append_none '.' a ['/'] h2]
  cases hp : lastIdx '.' a with
  | none => exact jsLe_none_left _
  | some k =>
    have hk : k < a.length := lastIdx_lt_length _ _ _ hp
    simp only [jsLe, idxInt, decide_eq_true_eq]
    push_cast
    omega

/-! ## Lemmas about `mkPathInfo` -/

theorem mkPathInfo_isOk_of_check (mount u : Str)
    (h : jsLe (lastIdx '.' u) (lastIdx '/' u) = false) :
    (mkPathInfo mount u).isOk = true := by
  cases hd : lastIdx '.' u with
  | none => rw [hd] at h; rw [jsLe_none_left] at h; exact Bool.noConfusion h
  | some d =>
    rw [hd] at h
    unfold mkPathInfo
    rw [hd]
    simp only [h, Bool.false_eq_true, if_false]
    rfl

theorem mkPathInfo_path_eq (u : Str)
    (h : jsLe (lastIdx '.' u) (lastIdx '/' u) = false) :
    ∃ info, mkPathInfo [] u = .ok info ∧ info.path = u := by
  cases hd : lastIdx '.' u with
  | none => rw [hd] at h; rw [jsLe_none_left] at h; exact Bool.noConfusion h
  | some d =>
    rw [hd] at h
    unfold mkPathInfo
    rw [hd]
    simp only [h, Bool.false_eq_true, if_false]
    refine ⟨_, rfl, ?_⟩
    simp

theorem mkPathInfo_ok_or_extError (mount u : Str) :
    (mkPathInfo mount u).isOk = true ∨ mkPathInfo mount u = .error extErrorMsg := by
  cases hd : lastIdx '.' u with
  | none =>
    right
    unfold mkPathInfo
    rw [hd]
  | some d =>
    by_cases h : jsLe (some d) (lastIdx '/' u) = true
    · right
      unfold mkPathInfo
      rw [hd]
      simp [h]
    · left
      exact mkPathInfo_isOk_of_check mount u (by rw [hd]; exact Bool.of_not_eq_true h)

theorem mkPathInfo_extError_of_check (mount u : Str)
    (h : jsLe (lastIdx '.' u) (lastIdx '/' u) = true) :
    mkPathInfo mount u = .error extErrorMsg := by
  cases hd : lastIdx '.' u with
  | none => unfold mkPathInfo; rw [hd]
  | some d => rw [hd] at h; unfold mkPathInfo; rw [hd]; simp [h]

/-! ## C6: separator collapsing -/

theorem collapseFirstRun_idem (s : Str) :
    collapseFirstRun (collapseFirstRun s) = collapseFirstRun s := by
  induction s with
  | nil => rfl
  | cons c rest ih =>
    by_cases h : c = '/'
    · subst h
      have h1 : collapseFirstRun ('/' :: rest)
          = '/' :: rest.dropWhile (fun x => x = '/') := by
        simp [collapseFirstRun]
      have h2 : collapseFirstRun ('/' :: rest.dropWhile (fun x => x = '/'))
          = '/' :: (rest.dropWhile (fun x => x = '/')).dropWhile (fun x => x = '/') := by
        simp [collapseFirstRun]
      rw [h1, h2, dropWhile_idem]
    · simp only [collapseFirstRun, if_neg h, ih]

/-- C6 (amended): `getPathInfos` collapses only the FIRST run of repeated
separators — its result on `urlPath` equals its result on `urlPath` with the
first run of consecutive separators replaced by a single one. -/
theorem getPathInfos_collapsesFirstRun (cwd urlPath mount : Str) (indices : List Str) :
    getPathInfos cwd urlPath mount indices
      = getPathInfos cwd (collapseFirstRun urlPath) mount indices := by
  unfold getPathInfos candidateUrls
  rw [collapseFirstRun_idem]

/-- Counterexample to C6 as stated: on `//a//b.html` the result differs from
the result on the fully separator-collapsed path `/a/b.html`, because the
replacement regex has no global flag and only the first `//` is collapsed. -/
theorem getPathInfos_collapseAll_counterexample :
    getPathInfos ("/cwd".toList) ("//a//b.html".toList) [] [("index.html".toList)]
      ≠ getPathInfos ("/cwd".toList) (collapseAllRuns ("//a//b.html".toList)) []
          [("index.html".toList)] := by
  decide

/-! ## Shape lemmas for `posixResolve` -/

theorem splitOnSlash_ne_nil (s : Str) : splitOnSlash s ≠ [] := by
  cases s with
  | nil => simp [splitOnSlash]
  | cons c rest =>
    simp only [splitOnSlash]
    by_cases h : c = '/'
    · simp [h]
    · simp [h]

theorem splitOnSlash_cons_slash (rest : Str) :
    splitOnSlash ('/' :: rest) = [] :: splitOnSlash rest := by
  simp [splitOnSlash]

/-- Prepending a separator-free string to `b` extends the first piece of
`b`'s splitting. -/
theorem splitOnSlash_noSlash_prepend (s : Str) (hs : '/' ∉ s) (b : Str) :
    splitOnSlash (s ++ b)
      = (s ++ (splitOnSlash b).headD []) :: (splitOnSlash b).tail := by
  induction s with
  | nil =>
    cases hb : splitOnSlash b with
    | nil => exact absurd hb (splitOnSlash_ne_nil b)
    | cons h t => simp [hb]
  | cons c rest ih =>
    have hc : c ≠ '/' := fun h => hs (h ▸ List.mem_cons_self c rest)
    have hrest : '/' ∉ rest := fun h => hs (List.mem_cons_of_mem c h)
    have hstep : splitOnSlash (c :: (rest ++ b))
        = (c :: (splitOnSlash (rest ++ b)).headD []) :: (splitOnSlash (rest ++ b)).tail := by
      rw [splitOnSlash]
      rw [if_neg hc]
    rw [List.cons_append, hstep, ih hrest]
    simp

theorem splitOnSlash_noSlash_slash (s : Str) (hs : '/' ∉ s) :
    splitOnSlash (s ++ ['/']) = [s, []] := by
  rw [splitOnSlash_noSlash_prepend s hs ['/']]
  simp [splitOnSlash]

/-- Any string of the form `a ++ "/" ++ s ++ "/"` with separator-free `s`
splits into some non-empty piece list followed by `[s, ""]`. -/
theorem splitOnSlash_tailShape (a s : Str) (hs : '/' ∉ s) :
    ∃ l, l ≠ [] ∧ splitOnSlash (a ++ '/' :: (s ++ ['/'])) = l ++ [s, []] := by
  induction a with
  | nil =>
    refine ⟨[[]], by simp, ?_⟩
    rw [List.nil_append, splitOnSlash_cons_slash, splitOnSlash_noSlash_slash s hs]
    rfl
  | cons c rest ih =>
    obtain ⟨l, hl, hsplit⟩ := ih
    by_cases hc : c = '/'
    · refine ⟨[] :: l, by simp, ?_⟩
      subst hc
      rw [List.cons_append, splitOnSlash_cons_slash, hsplit]
      simp
    · cases l with
      | nil => exact absurd rfl hl
      | cons h t =>
        refine ⟨(c :: h) :: t, by simp, ?_⟩
        rw [List.cons_append]
        have hstep : splitOnSlash (c :: (rest ++ '/' :: (s ++ ['/'])))
            = (c :: (splitOnSlash (rest ++ '/' :: (s ++ ['/']))).headD [])
              :: (splitOnSlash (rest ++ '/' :: (s ++ ['/']))).tail := by
          rw [splitOnSlash]
          rw [if_neg hc]
        rw [hstep, hsplit]
        simp

theorem normStack_append (allow : Bool) (st : List Str) (l₁ l₂ : List Str) :
    normStack allow st (l₁ ++ l₂) = normStack allow (normStack allow st l₁) l₂ := by
  induction l₁ generalizing st with
  | nil => rfl
  | cons seg rest ih =>
    simp only [List.cons_append, normStack]
    by_cases h1 : seg = [] ∨ seg = ['.']
    · rw [if_pos h1, if_pos h1]
      exact ih st
    · rw [if_neg h1, if_neg h1]
      by_cases h2 : seg = ['.', '.']
      · rw [if_pos h2, if_pos h2]
        by_cases h3 : st ≠ [] ∧ st.getLast? ≠ some ['.', '.']
        · rw [if_pos h3, if_pos h3]
          exact ih _
        · rw [if_neg h3, if_neg h3]
          cases allow with
          | true => simp only [if_pos rfl]; exact ih _
          | false => simp only [Bool.false_eq_true, if_neg Bool.false_ne_true]; exact ih _
      · rw [if_neg h2, if_neg h2]
        exact ih _

theorem normStack_final (allow : Bool) (st : List Str) (s : Str)
    (h0 : s ≠ []) (h1 : s ≠ ['.']) (h2 : s ≠ ['.', '.']) :
    normStack allow st [s, []] = st ++ [s] := by
  simp [normStack, h0, h1, h2]

theorem joinSegs_cons_ne (x : Str) (l : List Str) (h : l ≠ []) :
    joinSegs (x :: l) = x ++ '/' :: joinSegs l := by
  cases l with
  | nil => exact absurd rfl h
  | cons y ys => rfl

theorem joinSegs_concat_shape (st : List Str) (s : Str) :
    ∃ p, joinSegs (st ++ [s]) = p ++ s := by
  induction st with
  | nil => exact ⟨[], rfl⟩
  | cons x rest ih =>
    obtain ⟨p, hp⟩ := ih
    refine ⟨x ++ '/' :: p, ?_⟩
    rw [List.cons_append, joinSegs_cons_ne x (rest ++ [s]) (by simp), hp]
    simp

/-- The accumulation loop on `[d, index]` with non-empty `d` and a
separator-free, non-empty `index` always yields a string of the shape
`a ++ "/" ++ index ++ "/"`. -/
theorem goResolve_two_shape (cwd d index : Str) (hd : d ≠ [])
    (hi : index ≠ []) (hs : '/' ∉ index) :
    ∃ a abs, goResolve cwd [] [d, index].reverse
        = (a ++ '/' :: (index ++ ['/']), abs) := by
  have hih : index.headD ' ' ≠ '/' := by
    cases index with
    | nil => exact absurd rfl hi
    | cons x rest =>
      intro h
      rw [List.headD_cons] at h
      exact hs (h ▸ List.mem_cons_self x rest)
  have hrev : ([d, index] : List Str).reverse = [index, d] := rfl
  have h1 : goResolve cwd [] [index, d] = goResolve cwd (index ++ '/' :: []) [d] := by
    show (if index = [] then goResolve cwd [] [d]
      else if index.headD ' ' = '/' then (index ++ '/' :: [], true)
      else goResolve cwd (index ++ '/' :: []) [d]) = _
    rw [if_neg hi, if_neg hih]
  have h2 : ∀ acc : Str, goResolve cwd acc [d]
      = if d.headD ' ' = '/' then (d ++ '/' :: acc, true)
        else goResolve cwd (d ++ '/' :: acc) [] := by
    intro acc
    show (if d = [] then goResolve cwd acc []
      else if d.headD ' ' = '/' then (d ++ '/' :: acc, true)
      else goResolve cwd (d ++ '/' :: acc) []) = _
    rw [if_neg hd]
  have h3 : ∀ acc : Str, goResolve cwd acc []
      = if cwd = [] then (acc, false)
        else (cwd ++ '/' :: acc, decide (cwd.headD ' ' = '/')) := fun acc => rfl
  rw [hrev, h1, h2]
  by_cases hdh : d.headD ' ' = '/'
  · rw [if_pos hdh]
    exact ⟨d, true, rfl⟩
  · rw [if_neg hdh, h3]
    by_cases hcwd : cwd = []
    · rw [if_pos hcwd]
      exact ⟨d, false, rfl⟩
    · rw [if_neg hcwd]
      refine ⟨cwd ++ '/' :: d, decide (cwd.headD ' ' = '/'), ?_⟩
      simp

/-- `posixResolve cwd [d, index]` ends in `index` whenever `d` is non-empty
and `index` is a separator-free plain segment. -/
theorem posixResolve_suffix (cwd d index : Str) (hd : d ≠ []) (hi : index ≠ [])
    (hs : '/' ∉ index) (hn1 : index ≠ ['.']) (hn2 : index ≠ ['.', '.']) :
    ∃ p, posixResolve cwd [d, index] = p ++ index := by
  obtain ⟨a, abs, hgo⟩ := goResolve_two_shape cwd d index hd hi hs
  obtain ⟨l, hl, hsplit⟩ := splitOnSlash_tailShape a index hs
  obtain ⟨q, hq⟩ := joinSegs_concat_shape (normStack (!abs) [] l) index
  have hnorm : joinSegs (normStack (!abs) [] (splitOnSlash (a ++ '/' :: (index ++ ['/']))))
      = q ++ index := by
    rw [hsplit, normStack_append, normStack_final _ _ index hi hn1 hn2, hq]
  have hne : q ++ index ≠ [] := by
    intro h
    exact hi (List.append_eq_nil.mp h).2
  unfold posixResolve
  rw [hgo]
  simp only
  rw [hnorm]
  cases abs with
  | true => exact ⟨'/' :: q, rfl⟩
  | false =>
    refine ⟨q, ?_⟩
    simp [hne]

/-! ## C9: reachability of the extension fail-fast branch -/

/-- A directory-index name that is a plain file name with an extension: it
contains a dot, no separator, and is neither `.` nor `..`. -/
def plainIndexName (i : Str) : Bool :=
  decide ('.' ∈ i) && decide ('/' ∉ i) && decide (i ≠ ['.']) && decide (i ≠ ['.', '.'])

theorem plainIndexName_spec (i : Str) (h : plainIndexName i = true) :
    '.' ∈ i ∧ '/' ∉ i ∧ i ≠ ['.'] ∧ i ≠ ['.', '.'] := by
  simp only [plainIndexName, Bool.and_eq_true, decide_eq_true_eq] at h
  exact ⟨h.1.1.1, h.1.1.2, h.1.2, h.2⟩

theorem unique_foldl_mem (x : Str) (l : List Str) : ∀ acc, x ∈ l.foldl
    (fun retval item => if item ∈ retval then retval else retval ++ [item]) acc →
    x ∈ acc ∨ x ∈ l := by
  induction l with
  | nil => exact fun acc hx => Or.inl hx
  | cons y ys ih =>
    intro acc hx
    rw [List.foldl_cons] at hx
    rcases ih _ hx with hc | hc
    · by_cases hy : y ∈ acc
      · rw [if_pos hy] at hc
        exact Or.inl hc
      · rw [if_neg hy] at hc
        rcases List.mem_append.mp hc with hc | hc
        · exact Or.inl hc
        · exact Or.inr (List.mem_cons.mpr (Or.inl (List.mem_singleton.mp hc)))
    · exact Or.inr (List.mem_cons_of_mem y hc)

theorem unique_mem_sub (l : List Str) (x : Str) (h : x ∈ unique l) : x ∈ l := by
  rcases unique_foldl_mem x l [] h with hc | hc
  · exact absurd hc (List.not_mem_nil x)
  · exact hc

theorem mapME_isOk {α β : Type} (f : α → Except Str β) (l : List α)
    (h : ∀ x ∈ l, (f x).isOk = true) : (mapME f l).isOk = true := by
  induction l with
  | nil => rfl
  | cons y ys ih =>
    cases hfy : f y with
    | error e =>
      have := h y (List.mem_cons_self y ys)
      rw [hfy] at this
      exact absurd this (by simp [Except.isOk, Except.toBool])
    | ok v =>
      have hys := ih (fun x hx => h x (List.mem_cons_of_mem y hx))
      cases hmy : mapME f ys with
      | error e => rw [hmy] at hys; exact absurd hys (by simp [Except.isOk, Except.toBool])
      | ok vs =>
        simp only [mapME, hfy, hmy]
        rfl

theorem mapME_error_mem {α β : Type} (f : α → Except Str β) (m : Str) (l : List α)
    (hall : ∀ x ∈ l, (f x).isOk = true ∨ f x = .error m)
    (hbad : ∃ x ∈ l, f x = .error m) :
    mapME f l = .error m := by
  induction l with
  | nil =>
    obtain ⟨x, hx, _⟩ := hbad
    exact absurd hx (List.not_mem_nil x)
  | cons y ys ih =>
    cases hfy : f y with
    | error e =>
      have hy := hall y (List.mem_cons_self y ys)
      rw [hfy] at hy
      rcases hy with hy | hy
      · exact absurd hy (by simp [Except.isOk, Except.toBool])
      · injection hy with hy
        simp [mapME, hfy, hy]
    | ok v =>
      obtain ⟨x, hx, hbx⟩ := hbad
      have hxys : x ∈ ys := by
        rcases List.mem_cons.mp hx with hc | hc
        · rw [hc, hfy] at hbx
          exact absurd hbx (fun hc => Except.noConfusion hc)
        · exact hc
      have := ih (fun z hz => hall z (List.mem_cons_of_mem y hz)) ⟨x, hxys, hbx⟩
      simp [mapME, hfy, this]

/-- Every candidate URL built from plain directory-index names passes the
extension check. -/
theorem candidateUrls_extCheck (cwd urlPath : Str) (indices : List Str)
    (hidx : ∀ i ∈ indices, plainIndexName i = true) :
    ∀ u ∈ candidateUrls cwd urlPath indices,
      jsLe (lastIdx '.' u) (lastIdx '/' u) = false := by
  intro u hu
  unfold candidateUrls at hu
  by_cases hext : jsLe (lastIdx '.' (collapseFirstRun urlPath))
      (lastIdx '/' (collapseFirstRun urlPath)) = true
  · rw [if_pos hext] at hu
    by_cases hdir : collapseFirstRun urlPath = []
        ∨ (collapseFirstRun urlPath).getLast? = some '/'
    · rw [if_pos hdir] at hu
      obtain ⟨i, hi, hri⟩ := List.mem_map.mp hu
      obtain ⟨hdot, hsl, hn1, hn2⟩ := plainIndexName_spec i (hidx i hi)
      have hine : i ≠ [] := fun h => by rw [h] at hdot; exact List.not_mem_nil '.' hdot
      have hdne : (if collapseFirstRun urlPath = [] then ['/']
          else collapseFirstRun urlPath) ≠ [] := by
        by_cases hc : collapseFirstRun urlPath = []
        · simp [hc]
        · simp [hc]
      obtain ⟨p, hp⟩ := posixResolve_suffix cwd _ i hdne hine hsl hn1 hn2
      rw [← hri, hp]
      exact extCheck_false_of_suffix p i hdot hsl
    · rw [if_neg hdir] at hu
      rcases List.mem_singleton.mp hu with rfl
      exact extCheck_false_of_suffix _ _ (by decide) (by decide)
  · rw [if_neg hext] at hu
    rcases List.mem_singleton.mp hu with rfl
    exact Bool.of_not_eq_true hext

/-- C9 (amended): when every directory-index name is a plain file name with
an extension (contains a dot, no separator, not `.` or `..`), every
candidate URL has its last dot after its last separator, so the fail-fast
branch is not reached and `getPathInfos` succeeds; and whenever a candidate
without an extension IS produced (possible, e.g. for the index name
`index`), `getPathInfos` throws the `directory index must have an
extension.` error rather than return a recoverable result. -/
theorem getPathInfos_extBranch (cwd urlPath mount : Str) (indices : List Str) :
    ((∀ i ∈ indices, plainIndexName i = true) →
      (getPathInfos cwd urlPath mount indices).isOk = true) ∧
    (∀ u ∈ unique (candidateUrls cwd urlPath indices),
      jsLe (lastIdx '.' u) (lastIdx '/' u) = true →
      getPathInfos cwd urlPath mount indices = .error extErrorMsg) := by
  constructor
  · intro hidx
    unfold getPathInfos
    apply mapME_isOk
    intro u hu
    exact mkPathInfo_isOk_of_check mount u
      (candidateUrls_extCheck cwd urlPath indices hidx u (unique_mem_sub _ u hu))
  · intro u hu hcheck
    unfold getPathInfos
    apply mapME_error_mem
    · intro x _
      exact mkPathInfo_ok_or_extError mount x
    · exact ⟨u, hu, mkPathInfo_extError_of_check mount u hcheck⟩

/-- Witness for C9 (amended) at a concrete input: with the plain index name
`index.html` the function succeeds. -/
theorem getPathInfos_extBranch_witness :
    (getPathInfos ("/cwd".toList) ("/".toList) [] [("index.html".toList)]).isOk = true :=
  (getPathInfos_extBranch ("/cwd".toList) ("/".toList) [] [("index.html".toList)]).1
    (by decide)

/-- Counterexample to C9 as stated: with the extension-less directory-index
name `index`, step 2 produces the candidate `/index`, whose last dot is NOT
after its last separator, and `getPathInfos` throws — the branch is
reachable. -/
theorem getPathInfos_extError_reachable :
    getPathInfos ("/cwd".toList) ("/".toList) [] [("index".toList)]
      = .error extErrorMsg := by
  decide

/-! ## C7: directory-index descriptors -/

/-- The absolute, normalized directory path with segments `segs`:
`dirPathOf ["a","b"] = "/a/b/"`, `dirPathOf [] = "/"`. -/
def dirPathOf (segs : List Str) : Str :=
  '/' :: segs.foldr (fun s acc => s ++ '/' :: acc) []

/-- A clean path segment: non-empty, not `.` or `..`, separator-free. -/
def cleanSeg (s : Str) : Bool :=
  decide (s ≠ []) && decide (s ≠ ['.']) && decide (s ≠ ['.', '.']) && decide ('/' ∉ s)

theorem cleanSeg_spec (s : Str) (h : cleanSeg s = true) :
    s ≠ [] ∧ s ≠ ['.'] ∧ s ≠ ['.', '.'] ∧ '/' ∉ s := by
  simp only [cleanSeg, Bool.and_eq_true, decide_eq_true_eq] at h
  exact ⟨h.1.1.1, h.1.1.2, h.1.2, h.2⟩

theorem dirPathOf_ne_nil (segs : List Str) : dirPathOf segs ≠ [] :=
  fun h => List.noConfusion h

theorem dirPathOf_ends (segs : List Str) : ∃ a, dirPathOf segs = a ++ ['/'] := by
  induction segs with
  | nil => exact ⟨[], rfl⟩
  | cons s rest ih =>
    obtain ⟨a, ha⟩ := ih
    refine ⟨('/' :: s) ++ a, ?_⟩
    have h2 : s ++ '/' :: rest.foldr (fun t acc => t ++ '/' :: acc) []
        = s ++ (a ++ ['/']) := by
      rw [← ha]
      rfl
    show '/' :: (s ++ '/' :: rest.foldr (fun t acc => t ++ '/' :: acc) []) = _
    rw [h2]
    simp

theorem collapseFirstRun_dirPath (segs : List Str)
    (hsegs : ∀ s ∈ segs, cleanSeg s = true) :
    collapseFirstRun (dirPathOf segs) = dirPathOf segs := by
  cases segs with
  | nil => rfl
  | cons s rest =>
    obtain ⟨hne, _, _, hsl⟩ := cleanSeg_spec s (hsegs s (List.mem_cons_self s rest))
    cases s with
    | nil => exact absurd rfl hne
    | cons c cs =>
      have hc : ¬(c = '/') := fun h => hsl (h ▸ List.mem_cons_self c cs)
      show collapseFirstRun ('/' :: ((c :: cs) ++ '/' :: _)) = _
      simp only [collapseFirstRun, if_pos rfl, List.cons_append, List.dropWhile_cons,
        decide_eq_true_eq, if_neg hc]
      rfl

/-- Splitting a clean directory path followed by anything: one empty piece,
then the segments, then the splitting of the rest. -/
theorem splitOnSlash_dirPath (segs : List Str) (hsl : ∀ s ∈ segs, '/' ∉ s) (cs : Str) :
    splitOnSlash (dirPathOf segs ++ cs) = [] :: (segs ++ splitOnSlash cs) := by
  induction segs with
  | nil =>
    show splitOnSlash ('/' :: cs) = _
    rw [splitOnSlash_cons_slash]
    rfl
  | cons s rest ih =>
    have hs : '/' ∉ s := hsl s (List.mem_cons_self s rest)
    have hrest : ∀ t ∈ rest, '/' ∉ t := fun t ht => hsl t (List.mem_cons_of_mem s ht)
    have hshape : dirPathOf (s :: rest) ++ cs = '/' :: (s ++ (dirPathOf rest ++ cs)) := by
      show ('/' :: (s ++ '/' :: rest.foldr (fun t acc => t ++ '/' :: acc) [])) ++ cs = _
      simp [dirPathOf]
    rw [hshape, splitOnSlash_cons_slash,
      splitOnSlash_noSlash_prepend s hs (dirPathOf rest ++ cs), ih hrest]
    simp

theorem normStack_clean (allow : Bool) (st : List Str) (segs : List Str)
    (h : ∀ s ∈ segs, cleanSeg s = true) :
    normStack allow st segs = st ++ segs := by
  induction segs generalizing st with
  | nil => simp [normStack]
  | cons s rest ih =>
    obtain ⟨h0, h1, h2, _⟩ := cleanSeg_spec s (h s (List.mem_cons_self s rest))
    have hcond : ¬(s = [] ∨ s = ['.']) := fun hc => hc.elim h0 h1
    have hrest : ∀ t ∈ rest, cleanSeg t = true :=
      fun t ht => h t (List.mem_cons_of_mem s ht)
    have hstep : normStack allow st (s :: rest) = normStack allow (st ++ [s]) rest := by
      simp only [normStack, if_neg hcond, if_neg h2]
    rw [hstep, ih (st ++ [s]) hrest]
    simp

theorem joinSegs_dirPath (segs : List Str) (x : Str) :
    '/' :: joinSegs (segs ++ [x]) = dirPathOf segs ++ x := by
  induction segs with
  | nil => rfl
  | cons s rest ih =>
    rw [List.cons_append, joinSegs_cons_ne s (rest ++ [x]) (by simp)]
    show _ = ('/' :: (s ++ '/' :: rest.foldr (fun t acc => t ++ '/' :: acc) [])) ++ x
    have hr : dirPathOf rest ++ x
        = '/' :: (rest.foldr (fun t acc => t ++ '/' :: acc) [] ++ x) := by
      simp [dirPathOf]
    have := ih
    rw [hr] at this
    simp only [List.cons_append, List.append_assoc]
    rw [← List.cons_append, this]
    simp

theorem goResolve_absDir (cwd d index : Str) (hdh : d.headD ' ' = '/') (hd : d ≠ [])
    (hi : index ≠ []) (hih : index.headD ' ' ≠ '/') :
    goResolve cwd [] [d, index].reverse = (d ++ '/' :: (index ++ ['/']), true) := by
  have hrev : ([d, index] : List Str).reverse = [index, d] := rfl
  rw [hrev]
  show (if index = [] then goResolve cwd [] [d]
    else if index.headD ' ' = '/' then (index ++ '/' :: [], true)
    else goResolve cwd (index ++ '/' :: []) [d]) = _
  rw [if_neg hi, if_neg hih]
  show (if d = [] then goResolve cwd (index ++ '/' :: []) []
    else if d.headD ' ' = '/' then (d ++ '/' :: (index ++ '/' :: []), true)
    else goResolve cwd (d ++ '/' :: (index ++ '/' :: [])) []) = _
  rw [if_neg hd, if_pos hdh]

/-- Resolving a plain index name against a clean absolute directory path
just appends it. -/
theorem posixResolve_dirIndex (cwd : Str) (segs : List Str) (index : Str)
    (hsegs : ∀ s ∈ segs, cleanSeg s = true) (hidx : plainIndexName index = true) :
    posixResolve cwd [dirPathOf segs, index] = dirPathOf segs ++ index := by
  obtain ⟨hdot, hsl, hn1, hn2⟩ := plainIndexName_spec index hidx
  have hine : index ≠ [] := fun h => by rw [h] at hdot; exact List.not_mem_nil '.' hdot
  have hih : index.headD ' ' ≠ '/' := by
    cases index with
    | nil => exact absurd rfl hine
    | cons x rest =>
      intro h
      rw [List.headD_cons] at h
      exact hsl (h ▸ List.mem_cons_self x rest)
  have hsegsl : ∀ s ∈ segs, '/' ∉ s := fun s hs => (cleanSeg_spec s (hsegs s hs)).2.2.2
  have hdh : (dirPathOf segs).headD ' ' = '/' := rfl
  unfold posixResolve
  rw [goResolve_absDir cwd (dirPathOf segs) index hdh (dirPathOf_ne_nil segs) hine hih]
  simp only
  have hsplit : splitOnSlash (dirPathOf segs ++ '/' :: (index ++ ['/']))
      = [] :: (segs ++ ([] :: [index, []])) := by
    rw [splitOnSlash_dirPath segs hsegsl ('/' :: (index ++ ['/'])),
      splitOnSlash_cons_slash, splitOnSlash_noSlash_slash index hsl]
  rw [hsplit]
  have hskip1 : normStack false [] ([] :: (segs ++ ([] :: [index, []])))
      = normStack false [] (segs ++ ([] :: [index, []])) := by
    simp [normStack]
  have hskip2 : normStack false segs ([] :: [index, []])
      = normStack false segs [index, []] := by
    simp [normStack]
  rw [show (!true) = false from rfl, hskip1, normStack_append,
    normStack_clean false [] segs hsegs, List.nil_append, hskip2,
    normStack_final false segs index hine hn1 hn2]
  rw [if_pos trivial]
  exact joinSegs_dirPath segs index

theorem unique_foldl_nodup (l : List Str) : ∀ acc : List Str,
    (∀ x ∈ l, x ∉ acc) → l.Nodup →
    l.foldl (fun retval item => if item ∈ retval then retval else retval ++ [item]) acc
      = acc ++ l := by
  induction l with
  | nil => exact fun acc _ _ => (List.append_nil acc).symm
  | cons y ys ih =>
    intro acc hdis hnd
    rw [List.foldl_cons, if_neg (hdis y (List.mem_cons_self y ys))]
    have hdis2 : ∀ x ∈ ys, x ∉ acc ++ [y] := by
      intro x hx hmem
      rcases List.mem_append.mp hmem with hc | hc
      · exact hdis x (List.mem_cons_of_mem y hx) hc
      · exact (List.nodup_cons.mp hnd).1 (List.mem_singleton.mp hc ▸ hx)
    rw [ih (acc ++ [y]) hdis2 (List.nodup_cons.mp hnd).2]
    simp

theorem unique_eq_self (l : List Str) (h : l.Nodup) : unique l = l := by
  unfold unique
  rw [unique_foldl_nodup l [] (fun x _ hc => List.not_mem_nil x hc) h]
  rfl

theorem mapME_proj {α β γ : Type} (f : α → Except Str β) (proj : β → γ) (g : α → γ)
    (l : List α) (h : ∀ x ∈ l, ∃ y, f x = .ok y ∧ proj y = g x) :
    ∃ ys, mapME f l = .ok ys ∧ ys.map proj = l.map g := by
  induction l with
  | nil => exact ⟨[], rfl, rfl⟩
  | cons a as ih =>
    obtain ⟨y, hy, hpy⟩ := h a (List.mem_cons_self a as)
    obtain ⟨ys, hys, hpys⟩ := ih (fun x hx => h x (List.mem_cons_of_mem a hx))
    refine ⟨y :: ys, ?_, ?_⟩
    · simp [mapME, hy, hys]
    · simp [hpy, hpys]

/-- C7 (amended): for a clean absolute directory path (or the empty path,
with no segments), a non-empty list of PAIRWISE-DISTINCT plain index names,
and an empty mount, `getPathInfos` returns exactly one descriptor per index
name, in the given order, each with the directory path as prefix of its
`path` field.  (Duplicate index names are collapsed by the uniqueness
filter, which is what the counterexample exhibits.) -/
theorem getPathInfos_dirIndices (cwd urlPath : Str) (segs indices : List Str)
    (hsegs : ∀ s ∈ segs, cleanSeg s = true)
    (hidx : ∀ i ∈ indices, plainIndexName i = true)
    (hnd : indices.Nodup)
    (hu : urlPath = dirPathOf segs ∨ (urlPath = [] ∧ segs = [])) :
    ∃ infos, getPathInfos cwd urlPath [] indices = .ok infos ∧
      infos.map PathInfo.path = indices.map (fun i => dirPathOf segs ++ i) ∧
      infos.length = indices.length ∧
      ∀ info ∈ infos, urlPath.isPrefixOf info.path = true := by
  have hcol : collapseFirstRun urlPath = urlPath := by
    rcases hu with hu | ⟨hu, _⟩
    · rw [hu]
      exact collapseFirstRun_dirPath segs hsegs
    · rw [hu]
      rfl
  have hcheck : jsLe (lastIdx '.' urlPath) (lastIdx '/' urlPath) = true := by
    rcases hu with hu | ⟨hu, _⟩
    · obtain ⟨a, ha⟩ := dirPathOf_ends segs
      rw [hu, ha]
      exact extCheck_true_of_endsSlash a
    · rw [hu]
      rfl
  have hdir : urlPath = [] ∨ urlPath.getLast? = some '/' := by
    rcases hu with hu | ⟨hu, _⟩
    · right
      obtain ⟨a, ha⟩ := dirPathOf_ends segs
      rw [hu, ha]
      exact List.getLast?_concat a
    · exact Or.inl hu
  have hdir' : (if urlPath = [] then ['/'] else urlPath) = dirPathOf segs := by
    rcases hu with hu | ⟨hu, hsegs0⟩
    · rw [if_neg (hu ▸ dirPathOf_ne_nil segs), hu]
    · rw [if_pos hu, hsegs0]
      rfl
  have hurls : candidateUrls cwd urlPath indices
      = indices.map (fun i => dirPathOf segs ++ i) := by
    unfold candidateUrls
    rw [hcol, if_pos hcheck, if_pos hdir, hdir']
    exact List.map_congr_left
      (fun i hi => posixResolve_dirIndex cwd segs i hsegs (hidx i hi))
  have hinj : Function.Injective (fun i : Str => dirPathOf segs ++ i) := by
    intro a b hab
    simpa using hab
  have hndu : (indices.map (fun i => dirPathOf segs ++ i)).Nodup := hnd.map hinj
  have hall : ∀ u ∈ indices.map (fun i => dirPathOf segs ++ i),
      ∃ y, mkPathInfo [] u = .ok y ∧ PathInfo.path y = u := by
    intro u hu2
    obtain ⟨i, hi, hiu⟩ := List.mem_map.mp hu2
    obtain ⟨hdot, hsl, _, _⟩ := plainIndexName_spec i (hidx i hi)
    have hchk : jsLe (lastIdx '.' u) (lastIdx '/' u) = false := by
      rw [← hiu]
      exact extCheck_false_of_suffix (dirPathOf segs) i hdot hsl
    obtain ⟨info, hinfo, hpath⟩ := mkPathInfo_path_eq u hchk
    exact ⟨info, hinfo, hpath⟩
  obtain ⟨infos, hok, hmap⟩ := mapME_proj (mkPathInfo []) PathInfo.path
    (fun u => u) (indices.map (fun i => dirPathOf segs ++ i)) hall
  have hmap2 : infos.map PathInfo.path = indices.map (fun i => dirPathOf segs ++ i) := by
    rw [hmap]
    simp
  refine ⟨infos, ?_, hmap2, ?_, ?_⟩
  · unfold getPathInfos
    rw [hurls, unique_eq_self _ hndu]
    exact hok
  · have := congrArg List.length hmap2
    simpa using this
  · intro info hinfo
    have hpmem : info.path ∈ infos.map PathInfo.path := List.mem_map_of_mem _ hinfo
    rw [hmap2] at hpmem
    obtain ⟨i, _, hpi⟩ := List.mem_map.mp hpmem
    rcases hu with hu | ⟨hu, _⟩
    · rw [hu, ← hpi]
      exact isPrefixOf_append (dirPathOf segs) i
    · rw [hu]
      exact List.isPrefixOf_nil_left

/-- Witness for C7 (amended) at a concrete input: directory `/foo/` with two
distinct plain index names. -/
theorem getPathInfos_dirIndices_witness :
    ∃ infos, getPathInfos ("/cwd".toList) ("/foo/".toList) []
        [("index.html".toList), ("readme.md".toList)] = .ok infos ∧
      infos.map PathInfo.path
        = [("index.html".toList), ("readme.md".toList)].map
            (fun i => dirPathOf [("foo".toList)] ++ i) ∧
      infos.length = 2 ∧
      ∀ info ∈ infos, ("/foo/".toList).isPrefixOf info.path = true := by
  have h := getPathInfos_dirIndices ("/cwd".toList) ("/foo/".toList)
    [("foo".toList)] [("index.html".toList), ("readme.md".toList)]
    (by decide) (by decide) (by decide) (Or.inl (by decide))
  obtain ⟨infos, h1, h2, h3, h4⟩ := h
  exact ⟨infos, h1, h2, h3, h4⟩

/-- Counterexample to C7 as stated: for the directory path `/` and the
TWO-element index-name list `[index.html, index.html]`, `getPathInfos`
returns a single descriptor, not one per index name — duplicates are
dropped by the uniqueness filter. -/
theorem getPathInfos_dup_counterexample :
    (getPathInfos ("/cwd".toList) ("/".toList) []
        [("index.html".toList), ("index.html".toList)]).toOption.map List.length
      = some 1 := by
  decide

/-! ## Reference resolution (`resolveRef`) and the plan builder (`fetchers`)

Promises are embedded as their resolved values: the plan a `fetchers` call
builds is a pure function of the request parameters and of the outcomes of
the (at most two) ref-resolution service calls, which are passed as oracle
arguments.  Task parameter objects are embedded with the result of the
JavaScript spreads computed field by field; a missing key and a key holding
`undefined` are both `JsVal.undef`. -/

/-- A JavaScript value as it appears in invocation parameters. -/
inductive JsVal where
  | undef : JsVal
  | bool : Bool → JsVal
  | str : Str → JsVal
deriving DecidableEq

def jsOfOpt : Option Str → JsVal
  | none => .undef
  | some s => .str s

/-- `String.prototype.split(',')`, used for the `content.index` parameter. -/
def splitOnComma : Str → List Str
  | [] => [[]]
  | c :: rest =>
    if c = ',' then [] :: splitOnComma rest
    else (c :: (splitOnComma rest).headD []) :: (splitOnComma rest).tail

/-- The request parameters consumed by `fetchers` (fetchers.js lines
339-372); dotted JavaScript keys such as `content.index` become camel-case
fields, `__ow_headers['x-github-token']` is `owHeadersToken`, and the
opaque passthrough values `params.params`, `__ow_headers` and `__ow_method`
are kept as optional strings. -/
structure Params where
  path : Option Str := none
  rootPath : Option Str := none
  contentIndex : Option Str := none
  contentOwner : Option Str := none
  contentRepo : Option Str := none
  contentRef : Option Str := none
  contentPackage : Option Str := none
  contentRoot : Option Str := none
  contentParams : Option Str := none
  staticOwner : Option Str := none
  staticRepo : Option Str := none
  staticRef : Option Str := none
  staticEsi : Option Str := none
  staticRoot : Option Str := none
  gitHubToken : Option Str := none
  owHeadersToken : Option Str := none
  owHeaders : Option Str := none
  owMethod : Option Str := none
deriving DecidableEq

/-- `extractGithubToken` (fetchers.js lines 329-332):
`params.GITHUB_TOKEN || params.__ow_headers['x-github-token']`. -/
def extractGithubToken (p : Params) : Option Str := jsOr p.gitHubToken p.owHeadersToken

/-- The `staticOpts` object (fetchers.js lines 346-352, 362-365); `branch`
is only ever added by ref resolution. -/
structure StaticOpts where
  owner : Option Str
  repo : Option Str
  ref : Option Str
  esi : Option Str
  root : Option Str
  gitHubToken : Option Str := none
  branch : Option Str := none
deriving DecidableEq

/-- The `contentOpts` object (fetchers.js lines 354-360, 362-365). -/
structure ContentOpts where
  owner : Option Str
  repo : Option Str
  ref : Option Str
  package : Option Str
  params : Option Str
  gitHubToken : Option Str := none
  branch : Option Str := none
deriving DecidableEq

def staticOptsOf (p : Params) (tok : Option Str) : StaticOpts where
  owner := p.staticOwner
  repo := p.staticRepo
  ref := p.staticRef
  esi := p.staticEsi
  root := p.staticRoot
  gitHubToken := if truthyS tok then tok else none

def contentOptsOf (p : Params) (tok : Option Str) : ContentOpts where
  owner := p.contentOwner
  repo := p.contentRepo
  ref := p.contentRef
  package := p.contentPackage
  params := p.contentParams
  gitHubToken := if truthyS tok then tok else none

/-- `equalRepository` (fetchers.js lines 316-320). -/
def equalRepository (o1 : StaticOpts) (o2 : ContentOpts) : Bool :=
  o1.owner == o2.owner && o1.repo == o2.repo && o1.ref == o2.ref

/-- A repository coordinate, identifying one ref-resolution call. -/
structure RepoCoord where
  owner : Option Str
  repo : Option Str
  ref : Option Str
deriving DecidableEq

def coordOfStatic (o : StaticOpts) : RepoCoord where
  owner := o.owner
  repo := o.repo
  ref := o.ref

def coordOfContent (o : ContentOpts) : RepoCoord where
  owner := o.owner
  repo := o.repo
  ref := o.ref

/-- The response body of the ref-resolution service. -/
structure RefBody where
  sha : Option Str
deriving DecidableEq

structure RefServiceRes where
  statusCode : Option Nat
  body : Option RefBody
deriving DecidableEq

/-- The outcome of one invocation of the ref-resolution service: a
completed response, or a thrown transport/invocation error. -/
inductive ServiceOutcome where
  | ok : RefServiceRes → ServiceOutcome
  | exn : ServiceOutcome
deriving DecidableEq

/-- What `resolveRef` returns: `{ref}` or `{ref, branch}`; an absent
`branch` key is `none`. -/
structure RefResult where
  ref : Option Str
  branch : Option Str := none
deriving DecidableEq

def isHexDigitCI (c : Char) : Bool :=
  ('0' ≤ c && c ≤ '9') || ('a' ≤ c && c ≤ 'f') || ('A' ≤ c && c ≤ 'F')

/-- The regex `/^[a-f0-9]{40}$/i`. -/
def isHex40 (s : Str) : Bool :=
  s.length == 40 && s.all isHexDigitCI

/-- `resolveRef` (fetchers.js lines 266-298), with the service outcome as an
oracle.  The second component records whether the resolution service was
invoked.  A 40-hex-digit ref short-circuits; a response carrying a truthy
`body.sha` rewrites the ref and keeps the original as `branch`; every other
case — no body, no sha, empty sha, or a thrown error — falls back to the
original ref.  The logging the source performs on fallback has no effect on
the returned value and is not modelled. -/
def resolveRef (ref : Option Str) (svc : ServiceOutcome) : RefResult × Bool :=
  if truthyS ref && isHex40 (ref.getD []) then ({ ref := ref }, false)
  else
    match svc with
    | .exn => ({ ref := ref }, true)
    | .ok res =>
      match res.body with
      | none => ({ ref := ref }, true)
      | some body =>
        match body.sha with
        | none => ({ ref := ref }, true)
        | some sha =>
          if sha.isEmpty then ({ ref := ref }, true)
          else ({ ref := some sha, branch := ref }, true)

/-- The truthy `res.body && res.body.sha` value of a service outcome, if
any. -/
def usableShaOf (svc : ServiceOutcome) : Option Str :=
  match svc with
  | .exn => none
  | .ok res =>
    match res.body with
    | none => none
    | some body =>
      match body.sha with
      | none => none
      | some sha => if sha.isEmpty then none else some sha

/-- `updateOpts` (fetchers.js lines 306-308) for the static coordinate:
`{...opts, ...rr}` — `rr` always carries a `ref` key, and a `branch` key
only when resolution rewrote the ref; `opts` never carries `branch` before
the merge. -/
def updateStaticOpts (o : StaticOpts) (rr : RefResult) : StaticOpts :=
  { o with ref := rr.ref, branch := rr.branch }

/-- `updateOpts` for the content coordinate. -/
def updateContentOpts (o : ContentOpts) (rr : RefResult) : ContentOpts :=
  { o with ref := rr.ref, branch := rr.branch }

/-- The two resolver policies a task can carry. -/
inductive ResolverPolicy where
  | default : ResolverPolicy
  | errorPage : ResolverPolicy
deriving DecidableEq

/-- The parameter object of one invocation task, after all spreads.  A key
that is absent and a key holding `undefined` are both `.undef`. -/
structure TaskParams where
  path : Str
  esi : JsVal := .undef
  plain : JsVal := .undef
  root : JsVal := .undef
  rootPath : JsVal := .undef
  owner : JsVal := .undef
  repo : JsVal := .undef
  ref : JsVal := .undef
  branch : JsVal := .undef
  package : JsVal := .undef
  params : JsVal := .undef
  gitHubToken : JsVal := .undef
  owHeaders : JsVal := .undef
  owMethod : JsVal := .undef
deriving DecidableEq

/-- One invocation task of the plan. -/
structure Task where
  resolve : ResolverPolicy
  name : Str
  blocking : Bool
  idxOffset : Option Nat := none
  params : TaskParams
deriving DecidableEq

def HELIX_STATIC_ACTION : Str := "helix-services/static@v1".toList

/-- `fetchrawtasks` (fetchers.js lines 244-258): raw fetches from the
content repo.  Spread result: `{path, esi:false, plain:true,
root: params['content.root'], ...wskOpts, ...contentOpts}`. -/
def fetchrawtasks (infos : List PathInfo) (p : Params) (contentOpts : ContentOpts) :
    List Task :=
  infos.map (fun info =>
    { resolve := .default
      name := HELIX_STATIC_ACTION
      blocking := true
      params :=
        { path := info.path
          esi := .bool false
          plain := .bool true
          root := jsOfOpt p.contentRoot
          owHeaders := jsOfOpt p.owHeaders
          owMethod := jsOfOpt p.owMethod
          owner := jsOfOpt contentOpts.owner
          repo := jsOfOpt contentOpts.repo
          ref := jsOfOpt contentOpts.ref
          branch := jsOfOpt contentOpts.branch
          package := jsOfOpt contentOpts.package
          params := jsOfOpt contentOpts.params
          gitHubToken := jsOfOpt contentOpts.gitHubToken } })

/-- The pipeline action name
`{package || 'default'}/{selector + '_' if truthy}{ext}` (fetchers.js line
223). -/
def actionNameOf (contentOpts : ContentOpts) (info : PathInfo) : Str :=
  jsOrStr contentOpts.package ("default".toList)
    ++ '/' :: ((if info.selector.isEmpty then [] else info.selector ++ ['_']) ++ info.ext)

/-- `fetchactiontasks` (fetchers.js lines 221-236): pipeline-action
invocations.  Spread result: `{path: relPath+'.md', rootPath: rootPath||'',
...wskOpts, ...contentOpts}` — no `esi`/`plain`/`root` keys. -/
def fetchactiontasks (infos : List PathInfo) (p : Params) (contentOpts : ContentOpts) :
    List Task :=
  infos.map (fun info =>
    { resolve := .default
      name := actionNameOf contentOpts info
      blocking := true
      params :=
        { path := info.relPath ++ (".md".toList)
          rootPath := .str (jsOrStr p.rootPath [])
          owHeaders := jsOfOpt p.owHeaders
          owMethod := jsOfOpt p.owMethod
          owner := jsOfOpt contentOpts.owner
          repo := jsOfOpt contentOpts.repo
          ref := jsOfOpt contentOpts.ref
          branch := jsOfOpt contentOpts.branch
          package := jsOfOpt contentOpts.package
          params := jsOfOpt contentOpts.params
          gitHubToken := jsOfOpt contentOpts.gitHubToken } })

/-- `fetchfallbacktasks` (fetchers.js lines 198-213): raw fetches from the
static repo.  The spread `...staticOpts` comes after `esi: false`, and
`staticOpts` always carries an `esi` and a `root` key, so both are
overridden by the `static.*` values (possibly `undefined`). -/
def fetchfallbacktasks (infos : List PathInfo) (p : Params) (staticOpts : StaticOpts) :
    List Task :=
  infos.map (fun info =>
    { resolve := .default
      name := HELIX_STATIC_ACTION
      blocking := true
      params :=
        { path := info.path
          esi := jsOfOpt staticOpts.esi
          plain := .bool true
          root := jsOfOpt staticOpts.root
          owHeaders := jsOfOpt p.owHeaders
          owMethod := jsOfOpt p.owMethod
          owner := jsOfOpt staticOpts.owner
          repo := jsOfOpt staticOpts.repo
          ref := jsOfOpt staticOpts.ref
          branch := jsOfOpt staticOpts.branch
          gitHubToken := jsOfOpt staticOpts.gitHubToken } })

/-- `fetch404tasks` (fetchers.js lines 156-189): two `/404.html` fetches —
content repo first, then static repo — built only when the first
descriptor's extension is `html`, both with the error-page policy and the
`idxOffset` bookkeeping field.  The `[]` case cannot arise from `fetchers`,
which always passes a non-empty descriptor list (the source would throw a
`TypeError` reading `infos[0]` there). -/
def fetch404tasks (infos : List PathInfo) (p : Params) (contentOpts : ContentOpts)
    (staticOpts : StaticOpts) (idxOffset : Nat) : List Task :=
  match infos with
  | [] => []
  | info0 :: _ =>
    if info0.ext = ("html".toList) then
      [ { resolve := .errorPage
          name := HELIX_STATIC_ACTION
          blocking := true
          idxOffset := some idxOffset
          params :=
            { path := "/404.html".toList
              esi := .bool false
              plain := .bool true
              owHeaders := jsOfOpt p.owHeaders
              owMethod := jsOfOpt p.owMethod
              owner := jsOfOpt contentOpts.owner
              repo := jsOfOpt contentOpts.repo
              ref := jsOfOpt contentOpts.ref
              branch := jsOfOpt contentOpts.branch
              package := jsOfOpt contentOpts.package
              params := jsOfOpt contentOpts.params
              gitHubToken := jsOfOpt contentOpts.gitHubToken } },
        { resolve := .errorPage
          name := HELIX_STATIC_ACTION
          blocking := true
          idxOffset := some idxOffset
          params :=
            { path := "/404.html".toList
              esi := jsOfOpt staticOpts.esi
              plain := .bool true
              root := jsOfOpt staticOpts.root
              owHeaders := jsOfOpt p.owHeaders
              owMethod := jsOfOpt p.owMethod
              owner := jsOfOpt staticOpts.owner
              repo := jsOfOpt staticOpts.repo
              ref := jsOfOpt staticOpts.ref
              branch := jsOfOpt staticOpts.branch
              gitHubToken := jsOfOpt staticOpts.gitHubToken } } ]
    else []

/-- The plan: a base segment tried in order, then the 404 fallback. -/
structure Plan where
  base : List Task
  fetch404 : List Task
deriving DecidableEq

/-- The observable result of a `fetchers` call: the plan, the list of
ref-resolution calls that were started (in order), and the two resolved
coordinate objects that every consumer awaits. -/
structure FetchersOut where
  plan : Plan
  resolutionCalls : List RepoCoord
  contentResolved : ContentOpts
  staticResolved : StaticOpts
deriving DecidableEq

/-- `fetchers(params)` (fetchers.js lines 339-394) over the oracle outcomes
of the static and content ref-resolution calls.  `getPathInfos` is invoked
twice, exactly as in the source; the content coordinate reuses the static
resolution when the two coordinates are repository-equal. -/
def fetchers (cwd : Str) (p : Params) (svcStatic svcContent : ServiceOutcome) :
    Except Str FetchersOut :=
  let dirindex := splitOnComma (jsOrStr p.contentIndex ("index.html".toList))
  match getPathInfos cwd (jsOrStr p.path ("/".toList)) (jsOrStr p.rootPath []) dirindex with
  | .error e => .error e
  | .ok infos =>
    match getPathInfos cwd (jsOrStr p.path ("/".toList)) (jsOrStr p.rootPath []) dirindex with
    | .error e => .error e
    | .ok actioninfos =>
      let githubToken := extractGithubToken p
      let staticOpts := staticOptsOf p githubToken
      let contentOpts := contentOptsOf p githubToken
      let staticRef := (resolveRef staticOpts.ref svcStatic).1
      let eqRepo := equalRepository staticOpts contentOpts
      let contentRef := if eqRepo then staticRef else (resolveRef contentOpts.ref svcContent).1
      let resolutionCalls :=
        if eqRepo then [coordOfStatic staticOpts]
        else [coordOfStatic staticOpts, coordOfContent contentOpts]
      let staticResolved := updateStaticOpts staticOpts staticRef
      let contentResolved := updateContentOpts contentOpts contentRef
      let base := fetchrawtasks infos p contentResolved
        ++ fetchactiontasks actioninfos p contentResolved
        ++ fetchfallbacktasks infos p staticResolved
      .ok
        { plan :=
            { base := base
              fetch404 := fetch404tasks infos p contentResolved staticResolved base.length }
          resolutionCalls := resolutionCalls
          contentResolved := contentResolved
          staticResolved := staticResolved }

/-! ## C4: resolveRef -/

/-- Characterization of `resolveRef` through the truthy-sha view. -/
theorem resolveRef_eq (ref : Option Str) (svc : ServiceOutcome) :
    resolveRef ref svc
      = if truthyS ref && isHex40 (ref.getD []) then ({ ref := ref }, false)
        else
          match usableShaOf svc with
          | some sha => ({ ref := some sha, branch := ref }, true)
          | none => ({ ref := ref }, true) := by
  by_cases hhex : (truthyS ref && isHex40 (ref.getD [])) = true
  · unfold resolveRef
    rw [if_pos hhex, if_pos hhex]
  · have hneg := hhex
    unfold resolveRef usableShaOf
    rw [if_neg hneg, if_neg hneg]
    cases svc with
    | exn => rfl
    | ok res =>
      obtain ⟨st, bd⟩ := res
      cases bd with
      | none => rfl
      | some body =>
        obtain ⟨sh⟩ := body
        cases sh with
        | none => rfl
        | some s =>
          by_cases hemp : s.isEmpty = true
          · show (if s.isEmpty = true then _ else _) = _
            rw [if_pos hemp]
            show _ = (match (if s.isEmpty = true then none else some s : Option Str) with
              | some sha => (({ ref := some sha, branch := ref } : RefResult), true)
              | none => (({ ref := ref, branch := none } : RefResult), true))
            rw [if_pos hemp]
          · show (if s.isEmpty = true then _ else _) = _
            rw [if_neg hemp]
            show _ = (match (if s.isEmpty = true then none else some s : Option Str) with
              | some sha => (({ ref := some sha, branch := ref } : RefResult), true)
              | none => (({ ref := ref, branch := none } : RefResult), true))
            rw [if_neg hemp]

/-- C4: `resolveRef` always returns a value — a 40-hex-character ref (any
case) is returned unchanged without invoking the resolution service; a
service response with a truthy sha yields `{ref: sha, branch: originalRef}`;
every other case (no usable sha, or a thrown error) falls back to
`{ref: originalRef}` with no branch. -/
theorem resolveRef_spec (ref : Option Str) (svc : ServiceOutcome) :
    ((truthyS ref && isHex40 (ref.getD [])) = true →
      resolveRef ref svc = ({ ref := ref, branch := none }, false)) ∧
    ((truthyS ref && isHex40 (ref.getD [])) = false →
      (∀ sha, usableShaOf svc = some sha →
        resolveRef ref svc = ({ ref := some sha, branch := ref }, true)) ∧
      (usableShaOf svc = none →
        resolveRef ref svc = ({ ref := ref, branch := none }, true))) := by
  constructor
  · intro h
    rw [resolveRef_eq, if_pos h]
  · intro h
    have hneg : ¬((truthyS ref && isHex40 (ref.getD [])) = true) := by
      rw [h]
      exact Bool.false_ne_true
    refine ⟨fun sha hs => ?_, fun hs => ?_⟩
    · rw [resolveRef_eq, if_neg hneg, hs]
    · rw [resolveRef_eq, if_neg hneg, hs]

/-- A 40-hex-digit ref with both cases of letters. -/
def hexRef : Str := "0123456789abcdef0123456789ABCDEF01234567".toList

/-- Witness for C4 at concrete inputs: a 40-hex ref short-circuits without
a service call; a branch ref is rewritten from the response sha; a thrown
resolution error degrades to the original ref. -/
theorem resolveRef_spec_witness :
    resolveRef (some hexRef) .exn = ({ ref := some hexRef, branch := none }, false) ∧
    resolveRef (some ("main".toList))
        (.ok { statusCode := some 200, body := some { sha := some ("cafe".toList) } })
      = ({ ref := some ("cafe".toList), branch := some ("main".toList) }, true) ∧
    resolveRef (some ("main".toList)) .exn
      = ({ ref := some ("main".toList), branch := none }, true) := by
  refine ⟨?_, ?_, ?_⟩
  · exact (resolveRef_spec (some hexRef) .exn).1 (by decide)
  · exact ((resolveRef_spec (some ("main".toList))
      (.ok { statusCode := some 200, body := some { sha := some ("cafe".toList) } })).2
        (by decide)).1 ("cafe".toList) (by decide)
  · exact ((resolveRef_spec (some ("main".toList)) .exn).2 (by decide)).2 (by decide)

/-! ## C1, C5, C8: the plan `fetchers` builds -/

theorem map_const_replicate {α β : Type} (l : List α) (b : β) :
    l.map (fun _ => b) = List.replicate l.length b := by
  induction l with
  | nil => rfl
  | cons x xs ih => simp [List.replicate_succ, ih]

/-- C1: the base plan is, in order, one content-repo raw-fetch task per
descriptor, one pipeline-action task per descriptor, and one static-repo
raw-fetch task per descriptor, all with the default policy; the 404 plan is
non-empty exactly when the first descriptor's extension is `html`, in which
case it is a content-repo `/404.html` fetch followed by a static-repo
`/404.html` fetch, both with the error-page policy. -/
theorem fetchers_plan_structure (cwd : Str) (p : Params) (svcS svcC : ServiceOutcome)
    (out : FetchersOut) (h : fetchers cwd p svcS svcC = .ok out) :
    ∃ infos, getPathInfos cwd (jsOrStr p.path ("/".toList)) (jsOrStr p.rootPath [])
        (splitOnComma (jsOrStr p.contentIndex ("index.html".toList))) = .ok infos ∧
      out.plan.base.length = 3 * infos.length ∧
      out.plan.base.map Task.resolve
        = List.replicate (3 * infos.length) ResolverPolicy.default ∧
      out.plan.base.map Task.name
        = infos.map (fun _ => HELIX_STATIC_ACTION)
          ++ infos.map (actionNameOf out.contentResolved)
          ++ infos.map (fun _ => HELIX_STATIC_ACTION) ∧
      out.plan.base.map (fun t => t.params.path)
        = infos.map PathInfo.path
          ++ infos.map (fun i => i.relPath ++ (".md".toList))
          ++ infos.map PathInfo.path ∧
      out.plan.base.map (fun t => t.params.owner)
        = List.replicate infos.length (jsOfOpt out.contentResolved.owner)
          ++ List.replicate infos.length (jsOfOpt out.contentResolved.owner)
          ++ List.replicate infos.length (jsOfOpt out.staticResolved.owner) ∧
      (∀ info0 rest, infos = info0 :: rest →
        (info0.ext ≠ ("html".toList) → out.plan.fetch404 = []) ∧
        (info0.ext = ("html".toList) →
          out.plan.fetch404.map (fun t => (t.resolve, t.name, t.params.path, t.params.owner))
            = [(ResolverPolicy.errorPage, HELIX_STATIC_ACTION, ("/404.html".toList),
                jsOfOpt out.contentResolved.owner),
               (ResolverPolicy.errorPage, HELIX_STATIC_ACTION, ("/404.html".toList),
                jsOfOpt out.staticResolved.owner)])) := by
  simp only [fetchers] at h
  cases hinfo : getPathInfos cwd (jsOrStr p.path ("/".toList)) (jsOrStr p.rootPath [])
      (splitOnComma (jsOrStr p.contentIndex ("index.html".toList))) with
  | error e =>
    rw [hinfo] at h
    exact Except.noConfusion h
  | ok infos =>
    rw [hinfo] at h
    simp only [] at h
    injection h with h
    subst h
    refine ⟨infos, rfl, ?_, ?_, ?_, ?_, ?_, ?_⟩
    · simp only [fetchrawtasks, fetchactiontasks, fetchfallbacktasks]
      simp [List.length_append, List.length_map]
      omega
    · have h3 : 3 * infos.length = infos.length + (infos.length + infos.length) := by ring
      rw [h3, List.replicate_add, List.replicate_add]
      simp only [fetchrawtasks, fetchactiontasks, fetchfallbacktasks]
      simp [List.map_append, List.map_map, Function.comp_def, map_const_replicate]
    · simp only [fetchrawtasks, fetchactiontasks, fetchfallbacktasks]
      simp [List.map_append, List.map_map, Function.comp_def]
    · simp only [fetchrawtasks, fetchactiontasks, fetchfallbacktasks]
      simp [List.map_append, List.map_map, Function.comp_def]
    · simp only [fetchrawtasks, fetchactiontasks, fetchfallbacktasks]
      simp [List.map_append, List.map_map, Function.comp_def, map_const_replicate]
      rw [List.replicate_add, List.append_assoc]
    · intro info0 rest hinfos
      subst hinfos
      constructor
      · intro hne
        simp only [fetch404tasks, if_neg hne]
      · intro hext
        simp only [fetch404tasks, if_pos hext]
        simp

/-- Witness for C1 at a concrete request: the default parameter set yields
one descriptor and a base plan of three tasks. -/
theorem fetchers_plan_structure_witness :
    ∃ out infos, fetchers ("/cwd".toList) {} .exn .exn = .ok out ∧
      getPathInfos ("/cwd".toList) ("/".toList) []
        (splitOnComma ("index.html".toList)) = .ok infos ∧
      out.plan.base.length = 3 * infos.length := by
  have hk : (fetchers ("/cwd".toList) {} .exn .exn).isOk = true := by decide
  cases h : fetchers ("/cwd".toList) {} .exn .exn with
  | error e => rw [h] at hk; exact Bool.noConfusion hk
  | ok out =>
    obtain ⟨infos, h1, h2, _⟩ := fetchers_plan_structure ("/cwd".toList) {} .exn .exn out h
    exact ⟨out, infos, rfl, h1, h2⟩

/-- C5: when the static and content coordinates agree on owner, repo and
ref (pre-resolution), exactly one resolution call is started and both
resolved option objects are built from that same resolution result;
otherwise two calls are started, one per coordinate, regardless of how many
descriptors consume them. -/
theorem fetchers_resolution_dedup (cwd : Str) (p : Params) (svcS svcC : ServiceOutcome)
    (out : FetchersOut) (h : fetchers cwd p svcS svcC = .ok out) :
    (equalRepository (staticOptsOf p (extractGithubToken p))
        (contentOptsOf p (extractGithubToken p)) = true →
      out.resolutionCalls = [coordOfStatic (staticOptsOf p (extractGithubToken p))] ∧
      out.contentResolved = updateContentOpts (contentOptsOf p (extractGithubToken p))
        (resolveRef (staticOptsOf p (extractGithubToken p)).ref svcS).1 ∧
      out.staticResolved = updateStaticOpts (staticOptsOf p (extractGithubToken p))
        (resolveRef (staticOptsOf p (extractGithubToken p)).ref svcS).1) ∧
    (equalRepository (staticOptsOf p (extractGithubToken p))
        (contentOptsOf p (extractGithubToken p)) = false →
      out.resolutionCalls
        = [coordOfStatic (staticOptsOf p (extractGithubToken p)),
           coordOfContent (contentOptsOf p (extractGithubToken p))] ∧
      out.contentResolved = updateContentOpts (contentOptsOf p (extractGithubToken p))
        (resolveRef (contentOptsOf p (extractGithubToken p)).ref svcC).1) := by
  simp only [fetchers] at h
  cases hinfo : getPathInfos cwd (jsOrStr p.path ("/".toList)) (jsOrStr p.rootPath [])
      (splitOnComma (jsOrStr p.contentIndex ("index.html".toList))) with
  | error e =>
    rw [hinfo] at h
    exact Except.noConfusion h
  | ok infos =>
    rw [hinfo] at h
    simp only [] at h
    injection h with h
    subst h
    constructor
    · intro heq
      rw [heq]
      simp
    · intro heq
      rw [heq]
      simp

/-- Witness for C5 at concrete inputs: with all-default (hence equal)
coordinates one resolution call is issued. -/
theorem fetchers_resolution_dedup_witness :
    ∃ out, fetchers ("/cwd".toList) {} .exn .exn = .ok out ∧
      out.resolutionCalls = [coordOfStatic (staticOptsOf {} none)] := by
  have hk : (fetchers ("/cwd".toList) {} .exn .exn).isOk = true := by decide
  cases h : fetchers ("/cwd".toList) {} .exn .exn with
  | error e => rw [h] at hk; exact Bool.noConfusion hk
  | ok out =>
    have hcalls := ((fetchers_resolution_dedup ("/cwd".toList) {} .exn .exn out h).1
      (by decide)).1
    exact ⟨out, rfl, by rw [hcalls]; decide⟩

/-- C8 (amended): only the two 404-fallback descriptors record an
`idxOffset` field (equal to the number of base tasks); the base-plan
descriptors record none. -/
theorem fetchers_idxOffset (cwd : Str) (p : Params) (svcS svcC : ServiceOutcome)
    (out : FetchersOut) (h : fetchers cwd p svcS svcC = .ok out) :
    (∀ t ∈ out.plan.base, t.idxOffset = none) ∧
    (∀ t ∈ out.plan.fetch404, t.idxOffset = some out.plan.base.length) := by
  simp only [fetchers] at h
  cases hinfo : getPathInfos cwd (jsOrStr p.path ("/".toList)) (jsOrStr p.rootPath [])
      (splitOnComma (jsOrStr p.contentIndex ("index.html".toList))) with
  | error e =>
    rw [hinfo] at h
    exact Except.noConfusion h
  | ok infos =>
    rw [hinfo] at h
    simp only [] at h
    injection h with h
    subst h
    constructor
    · intro t ht
      simp only [fetchrawtasks, fetchactiontasks, fetchfallbacktasks,
        List.mem_append, List.mem_map] at ht
      rcases ht with (⟨i, _, hi⟩ | ⟨i, _, hi⟩) | ⟨i, _, hi⟩ <;> rw [← hi]
    · intro t ht
      cases infos with
      | nil =>
        simp only [fetch404tasks] at ht
        exact absurd ht (List.not_mem_nil t)
      | cons info0 rest =>
        simp only [fetch404tasks] at ht
        by_cases hext : info0.ext = ("html".toList)
        · rw [if_pos hext] at ht
          rcases List.mem_cons.mp ht with hc | hc
          · rw [hc]
          · rcases List.mem_singleton.mp hc with rfl
            rfl
        · rw [if_neg hext] at ht
          exact absurd ht (List.not_mem_nil t)

/-- Witness for C8 (amended) at a concrete request: the two 404 tasks carry
`idxOffset` 3, the length of the base plan. -/
theorem fetchers_idxOffset_witness :
    ∃ out, fetchers ("/cwd".toList) {} .exn .exn = .ok out ∧
      ∀ t ∈ out.plan.fetch404, t.idxOffset = some out.plan.base.length := by
  have hk : (fetchers ("/cwd".toList) {} .exn .exn).isOk = true := by decide
  cases h : fetchers ("/cwd".toList) {} .exn .exn with
  | error e => rw [h] at hk; exact Bool.noConfusion hk
  | ok out =>
    exact ⟨out, rfl, (fetchers_idxOffset ("/cwd".toList) {} .exn .exn out h).2⟩

/-- Counterexample to C8 as stated: on the default request every base-plan
descriptor records NO `idxOffset` field — only the 404-fallback descriptors
do. -/
theorem fetchers_idxOffset_counterexample :
    (fetchers ("/cwd".toList) {} .exn .exn).toOption.map
        (fun o => o.plan.base.map Task.idxOffset)
      = some [none, none, none] := by
  decide

end HelixDispatch
